import Mathlib

/-!
Verification of the geronimo-captcha library against its specification.

The development shallowly embeds the Rust sources:

* `src/challenge.rs` — the stateless challenge-token protocol
  (`build_challenge_id`, `verify`), including Rust `str::split(':')`,
  `u64::from_str`, decimal rendering of `u64`, and the canonical
  standard-alphabet base64 codec used for the authenticator.
* `src/registry.rs` — the in-memory challenge registry with its timing
  wheel (`register`, `check`, `verify`, `note_attempt`, `advance_wheel`,
  `schedule_expiry`).
* `src/manager.rs` — `CaptchaManager::verify_challenge`.
* the tile-selection core of `create_sprite` in `src/challenge.rs`.

Machine integers are `Nat` with explicit saturation where the source
saturates (`saturating_add`, `saturating_sub`, the `u16` attempt counter).
`HMAC-SHA256` is treated as an opaque parameter `mac` of the protocol
functions: the source computes it by three `Mac::update` calls over the
nonce bytes, the single answer byte and the 8-byte big-endian timestamp,
so the tuple `(secret, nonce, digit, timestamp)` determines the MAC input
exactly.  Wall-clock time (`utils::get_timestamp`, not part of the
sources) is likewise an explicit `now`/`ts` parameter, and the random
UUID nonce a parameter `nonce`.
-/

namespace Geronimo

/-- Largest value of a Rust `u64`. -/
def U64MAX : Nat := 2 ^ 64 - 1

/-- Largest value of a Rust `u16`. -/
def U16MAX : Nat := 65535

/-- Rust `u64::saturating_add`. -/
def satAdd64 (a b : Nat) : Nat := min (a + b) U64MAX

/-- Rust `str::split(':')` over a string given as a character list:
adjacent, leading and trailing separators produce empty fields, and the
empty string yields one empty field. -/
def splitColon : List Char → List (List Char)
  | [] => [[]]
  | c :: rest =>
    if c = ':' then [] :: splitColon rest
    else
      match splitColon rest with
      | [] => [[c]]
      | p :: ps => (c :: p) :: ps

/-- Value of an ASCII decimal digit character. -/
def digitVal (c : Char) : Option Nat :=
  if '0' ≤ c ∧ c ≤ '9' then some (c.toNat - '0'.toNat) else none

/-- Accumulating decimal parse of a digit run. -/
def parseDigitsAux : List Char → Nat → Option Nat
  | [], acc => some acc
  | c :: cs, acc =>
    match digitVal c with
    | none => none
    | some d => parseDigitsAux cs (acc * 10 + d)

/-- Rust `u64::from_str` (`parts[1].parse::<u64>()`): an optional leading
`+`, then one or more decimal digits, rejecting the empty string, any
non-digit, and values above `u64::MAX`. -/
def parseU64 (s : List Char) : Option Nat :=
  let body := if s.head? = some '+' then s.tail else s
  if body = [] then none
  else
    match parseDigitsAux body 0 with
    | none => none
    | some v => if v ≤ U64MAX then some v else none

/-- Rust `format!("{timestamp}")`: decimal rendering of a `u64`. -/
def natChars (n : Nat) : List Char :=
  if n = 0 then ['0'] else ((Nat.digits 10 n).map Nat.digitChar).reverse

/-- The standard base64 alphabet (RFC 4648). -/
def b64Alphabet : List Char :=
  ['A', 'B', 'C', 'D', 'E', 'F', 'G', 'H', 'I', 'J', 'K', 'L', 'M',
   'N', 'O', 'P', 'Q', 'R', 'S', 'T', 'U', 'V', 'W', 'X', 'Y', 'Z',
   'a', 'b', 'c', 'd', 'e', 'f', 'g', 'h', 'i', 'j', 'k', 'l', 'm',
   'n', 'o', 'p', 'q', 'r', 's', 't', 'u', 'v', 'w', 'x', 'y', 'z',
   '0', '1', '2', '3', '4', '5', '6', '7', '8', '9', '+', '/']

/-- Character for a 6-bit group. -/
def b64Char (n : Nat) : Char := b64Alphabet.getD n 'A'

/-- Index of a character in the base64 alphabet, `none` for foreign
characters (including `=`). -/
def b64Index (c : Char) : Option Nat :=
  let i := b64Alphabet.indexOf c
  if i < 64 then some i else none

/-- `BASE64_STANDARD.encode`: standard alphabet, `=`-padded. -/
def b64encode : List Nat → List Char
  | [] => []
  | [a] => [b64Char (a / 4), b64Char (a % 4 * 16), '=', '=']
  | [a, b] => [b64Char (a / 4), b64Char (a % 4 * 16 + b / 16), b64Char (b % 16 * 4), '=']
  | a :: b :: c :: rest =>
    b64Char (a / 4) :: b64Char (a % 4 * 16 + b / 16) ::
      b64Char (b % 16 * 4 + c / 64) :: b64Char (c % 64) :: b64encode rest

/-- `BASE64_STANDARD.decode`: requires canonical padding (length a
multiple of four, `=` only at the end of the final quantum) and zero
unused trailing bits, as the `base64` crate's standard engine does. -/
def b64decode : List Char → Option (List Nat)
  | [] => some []
  | c1 :: c2 :: c3 :: c4 :: rest =>
    match b64Index c1, b64Index c2 with
    | some i1, some i2 =>
      if c3 = '=' then
        if c4 = '=' ∧ rest = [] ∧ i2 % 16 = 0 then
          some [i1 * 4 + i2 / 16]
        else none
      else
        match b64Index c3 with
        | some i3 =>
          if c4 = '=' then
            if rest = [] ∧ i3 % 4 = 0 then
              some [i1 * 4 + i2 / 16, i2 % 16 * 16 + i3 / 4]
            else none
          else
            match b64Index c4 with
            | some i4 =>
              match b64decode rest with
              | some bs =>
                some ((i1 * 4 + i2 / 16) :: (i2 % 16 * 16 + i3 / 4) ::
                  (i3 % 4 * 64 + i4) :: bs)
              | none => none
            | none => none
        | none => none
    | _, _ => none
  | _ => none

/-- Type of the opaque HMAC-SHA256 parameter: secret bytes, nonce
characters, answer byte, timestamp (hashed big-endian); result bytes. -/
def MacFn : Type := List Nat → List Char → Nat → Nat → List Nat

/-- Embedding of `build_challenge_id` from `src/challenge.rs`: the token
is `"{nonce}:{timestamp}:{base64(mac)}"` and the mint timestamp is
returned alongside.  The wall clock (`get_timestamp()`) is the parameter
`ts` and the fresh UUID nonce the parameter `nonce`. -/
def build_challenge_id (mac : MacFn) (secret : List Nat) (nonce : List Char)
    (ts : Nat) (correct_number : Nat) : List Char × Nat :=
  (nonce ++ ':' :: (natChars ts ++ ':' :: b64encode (mac secret nonce correct_number ts)), ts)

/-- Embedding of `challenge::verify` from `src/challenge.rs`: split on
`:` into exactly three parts, parse the timestamp, reject when
`now > timestamp.saturating_add(ttl)`, recompute the MAC under the
guessed index, base64-decode the authenticator, compare lengths, and
constant-time-compare the bytes (value-wise: equality). -/
def verify (mac : MacFn) (now : Nat) (secret : List Nat) (challenge_id : List Char)
    (selected_index : Nat) (ttl : Nat) : Bool :=
  match splitColon challenge_id with
  | [nonce, tsField, codeField] =>
    match parseU64 tsField with
    | none => false
    | some timestamp =>
      if now > satAdd64 timestamp ttl then false
      else
        let computed := mac secret nonce selected_index timestamp
        match b64decode codeField with
        | none => false
        | some expected =>
          if expected.length ≠ computed.length then false
          else decide (computed = expected)
  | _ => false

/-- A concrete instantiation of the opaque MAC parameter, used only to
build witnesses and counterexamples: 32 bytes each equal to the answer
byte reduced mod 256. -/
def macTest : MacFn := fun _ _ d _ => List.replicate 32 (d % 256)

theorem splitColon_ne_nil (s : List Char) : splitColon s ≠ [] := by
  match s with
  | [] => simp [splitColon]
  | c :: rest =>
    simp only [splitColon]
    split
    · simp
    · split <;> simp

theorem splitColon_eq_single (xs : List Char) (h : ':' ∉ xs) : splitColon xs = [xs] := by
  induction xs with
  | nil => rfl
  | cons c cs ih =>
    have hc : ¬(c = ':') := fun hh => h (hh ▸ List.mem_cons_self c cs)
    have hcs : ':' ∉ cs := fun hm => h (List.mem_cons_of_mem _ hm)
    simp only [splitColon, if_neg hc, ih hcs]

theorem splitColon_append (xs ys : List Char) (h : ':' ∉ xs) :
    splitColon (xs ++ ':' :: ys) = xs :: splitColon ys := by
  induction xs with
  | nil => simp [splitColon]
  | cons c cs ih =>
    have hc : ¬(c = ':') := fun hh => h (hh ▸ List.mem_cons_self c cs)
    have hcs : ':' ∉ cs := fun hm => h (List.mem_cons_of_mem _ hm)
    simp only [List.cons_append, splitColon, if_neg hc, List.append_eq]
    rw [ih hcs]

theorem parseDigitsAux_append (xs ys : List Char) (acc : Nat) :
    parseDigitsAux (xs ++ ys) acc =
      match parseDigitsAux xs acc with
      | none => none
      | some v => parseDigitsAux ys v := by
  induction xs generalizing acc with
  | nil => rfl
  | cons c cs ih =>
    simp only [List.cons_append, parseDigitsAux]
    cases digitVal c with
    | none => rfl
    | some d => exact ih _

theorem digitVal_digitChar {d : Nat} (h : d < 10) : digitVal d.digitChar = some d := by
  interval_cases d <;> decide

theorem parseDigitsAux_digits (ds : List Nat) (acc : Nat) (h : ∀ d ∈ ds, d < 10) :
    parseDigitsAux ((ds.map Nat.digitChar).reverse) acc =
      some (acc * 10 ^ ds.length + Nat.ofDigits 10 ds) := by
  induction ds generalizing acc with
  | nil => simp [parseDigitsAux, Nat.ofDigits]
  | cons d ds ih =>
    simp only [List.map_cons, List.reverse_cons, parseDigitsAux_append]
    rw [ih _ (fun x hx => h x (List.mem_cons_of_mem _ hx))]
    simp only [parseDigitsAux, digitVal_digitChar (h d (List.mem_cons_self d ds))]
    rw [Nat.ofDigits_cons]
    congr 1
    rw [List.length_cons, pow_succ]
    ring

theorem digitChar_ne_colon {d : Nat} (h : d < 10) : d.digitChar ≠ ':' := by
  interval_cases d <;> decide

theorem digitChar_ne_plus {d : Nat} (h : d < 10) : d.digitChar ≠ '+' := by
  interval_cases d <;> decide

theorem colon_not_mem_natChars (n : Nat) : ':' ∉ natChars n := by
  unfold natChars
  split
  · decide
  · intro hmem
    simp only [List.mem_reverse, List.mem_map] at hmem
    obtain ⟨d, hd, hdc⟩ := hmem
    exact digitChar_ne_colon (Nat.digits_lt_base (by norm_num) hd) hdc

theorem natChars_head_ne_plus (n : Nat) : (natChars n).head? ≠ some '+' := by
  unfold natChars
  split
  · decide
  · intro hh
    have hne : ((Nat.digits 10 n).map Nat.digitChar).reverse ≠ [] := by
      simp [Nat.digits_ne_nil_iff_ne_zero, *]
    have hmem : '+' ∈ ((Nat.digits 10 n).map Nat.digitChar).reverse :=
      List.mem_of_mem_head? (by rw [hh]; exact rfl)
    simp only [List.mem_reverse, List.mem_map] at hmem
    obtain ⟨d, hd, hdc⟩ := hmem
    exact digitChar_ne_plus (Nat.digits_lt_base (by norm_num) hd) hdc

theorem natChars_ne_nil (n : Nat) : natChars n ≠ [] := by
  unfold natChars
  split
  · simp
  · simp [Nat.digits_ne_nil_iff_ne_zero, *]

theorem parseU64_natChars (n : Nat) (h : n ≤ U64MAX) : parseU64 (natChars n) = some n := by
  by_cases h0 : n = 0
  · subst h0; decide
  · unfold parseU64
    rw [if_neg (natChars_head_ne_plus n), if_neg (natChars_ne_nil n)]
    unfold natChars
    rw [if_neg h0]
    rw [parseDigitsAux_digits _ 0 (fun d hd => Nat.digits_lt_base (by norm_num) hd)]
    simp [Nat.ofDigits_digits, h]

theorem parseU64_nil : parseU64 [] = none := rfl

theorem b64Char_ne_colon (n : Nat) : b64Char n ≠ ':' := by
  have hsmall : ∀ m, m < 64 → b64Alphabet.getD m 'A' ≠ ':' := by decide
  by_cases hn : n < 64
  · exact hsmall n hn
  · unfold b64Char
    rw [List.getD_eq_default]
    · decide
    · simp only [b64Alphabet, List.length]
      omega

theorem b64Char_ne_eq {n : Nat} (h : n < 64) : b64Char n ≠ '=' := by
  have hsmall : ∀ m, m < 64 → b64Alphabet.getD m 'A' ≠ '=' := by decide
  exact hsmall n h

theorem b64Index_b64Char {n : Nat} (h : n < 64) : b64Index (b64Char n) = some n := by
  have hsmall : ∀ m, m < 64 → b64Index (b64Char m) = some m := by decide
  exact hsmall n h

theorem colon_not_mem_b64encode (bs : List Nat) : ':' ∉ b64encode bs := by
  induction bs using b64encode.induct with
  | case1 => simp [b64encode]
  | case2 a =>
    simp only [b64encode, List.mem_cons, List.not_mem_nil, or_false]
    push_neg
    exact ⟨Ne.symm (b64Char_ne_colon _), Ne.symm (b64Char_ne_colon _), by decide, by decide⟩
  | case3 a b =>
    simp only [b64encode, List.mem_cons, List.not_mem_nil, or_false]
    push_neg
    exact ⟨Ne.symm (b64Char_ne_colon _), Ne.symm (b64Char_ne_colon _),
      Ne.symm (b64Char_ne_colon _), by decide⟩
  | case4 a b c rest ih =>
    simp only [b64encode, List.mem_cons]
    push_neg
    exact ⟨Ne.symm (b64Char_ne_colon _), Ne.symm (b64Char_ne_colon _),
      Ne.symm (b64Char_ne_colon _), Ne.symm (b64Char_ne_colon _), ih⟩

theorem b64decode_encode (bs : List Nat) (h : ∀ b ∈ bs, b < 256) :
    b64decode (b64encode bs) = some bs := by
  induction bs using b64encode.induct with
  | case1 => rfl
  | case2 a =>
    have ha : a < 256 := h a (by simp)
    have h1 : a / 4 < 64 := by omega
    have h2 : a % 4 * 16 < 64 := by omega
    have e1 : a / 4 * 4 + a % 4 * 16 / 16 = a := by omega
    have hz : a % 4 * 16 % 16 = 0 := by omega
    simp only [b64encode, b64decode, b64Index_b64Char h1, b64Index_b64Char h2, e1, hz]
    simp
  | case3 a b =>
    have ha : a < 256 := h a (by simp)
    have hb : b < 256 := h b (by simp)
    have h1 : a / 4 < 64 := by omega
    have h2 : a % 4 * 16 + b / 16 < 64 := by omega
    have h3 : b % 16 * 4 < 64 := by omega
    have e1 : a / 4 * 4 + (a % 4 * 16 + b / 16) / 16 = a := by omega
    have e2 : (a % 4 * 16 + b / 16) % 16 * 16 + b % 16 * 4 / 4 = b := by omega
    have hz : b % 16 * 4 % 4 = 0 := by omega
    simp only [b64encode, b64decode, b64Index_b64Char h1, b64Index_b64Char h2]
    rw [if_neg (b64Char_ne_eq h3)]
    simp only [b64Index_b64Char h3, e1, e2, hz]
    simp
  | case4 a b c rest ih =>
    have ha : a < 256 := h a (by simp)
    have hb : b < 256 := h b (by simp)
    have hc : c < 256 := h c (by simp)
    have h1 : a / 4 < 64 := by omega
    have h2 : a % 4 * 16 + b / 16 < 64 := by omega
    have h3 : b % 16 * 4 + c / 64 < 64 := by omega
    have h4 : c % 64 < 64 := by omega
    have hrest : ∀ x ∈ rest, x < 256 := fun x hx => h x (by simp [hx])
    have e1 : a / 4 * 4 + (a % 4 * 16 + b / 16) / 16 = a := by omega
    have e2 : (a % 4 * 16 + b / 16) % 16 * 16 + (b % 16 * 4 + c / 64) / 4 = b := by omega
    have e3 : (b % 16 * 4 + c / 64) % 4 * 64 + c % 64 = c := by omega
    simp only [b64encode, b64decode, b64Index_b64Char h1, b64Index_b64Char h2]
    rw [if_neg (b64Char_ne_eq h3)]
    simp only [b64Index_b64Char h3]
    rw [if_neg (b64Char_ne_eq h4)]
    simp only [b64Index_b64Char h4, ih hrest, e1, e2, e3]

/-- Freshly minted tokens verify under the digit they were minted for,
for any MAC function, any ttl, and any verification time up to
`ts + ttl`. -/
theorem verify_mint (mac : MacFn) (secret : List Nat) (nonce : List Char)
    (answer ts now ttl : Nat)
    (hnonce : ':' ∉ nonce)
    (hmac : ∀ b ∈ mac secret nonce answer ts, b < 256)
    (hts : ts ≤ U64MAX) (hnow : now ≤ U64MAX) (hfresh : now ≤ ts + ttl) :
    verify mac now secret (build_challenge_id mac secret nonce ts answer).1 answer ttl = true := by
  unfold build_challenge_id verify
  dsimp only
  have hsplit : splitColon (nonce ++ ':' :: (natChars ts ++ ':' :: b64encode (mac secret nonce answer ts))) = [nonce, natChars ts, b64encode (mac secret nonce answer ts)] := by
    rw [splitColon_append _ _ hnonce, splitColon_append _ _ (colon_not_mem_natChars ts),
      splitColon_eq_single _ (colon_not_mem_b64encode _)]
  rw [hsplit]
  simp only [parseU64_natChars ts hts]
  rw [if_neg (show ¬ now > satAdd64 ts ttl by simp only [satAdd64, U64MAX] at hts hnow ⊢; omega)]
  rw [b64decode_encode _ hmac]
  simp

/-- C1: for every secret and every answer digit in [1..9], minting a
token for that answer and verifying it with the same digit, the same
secret and ttl = 60 returns `true`, provided verification happens while
the token is unexpired (`now ≤ ts + 60`).  The HMAC is the opaque
parameter `mac` (byte-valued output), the UUID nonce a colon-free
parameter, and mint time / verification time the parameters `ts` /
`now`, both `u64`-ranged. -/
theorem mint_then_verify_same_answer (mac : MacFn) (secret : List Nat) (nonce : List Char)
    (answer ts now : Nat) (hlo : 1 ≤ answer) (hhi : answer ≤ 9)
    (hnonce : ':' ∉ nonce)
    (hmac : ∀ b ∈ mac secret nonce answer ts, b < 256)
    (hts : ts ≤ U64MAX) (hnow : now ≤ U64MAX) (hfresh : now ≤ ts + 60) :
    verify mac now secret (build_challenge_id mac secret nonce ts answer).1 answer 60 = true :=
  verify_mint mac secret nonce answer ts now 60 hnonce hmac hts hnow hfresh

theorem mint_then_verify_same_answer_witness :
    verify macTest 5 [107] (build_challenge_id macTest [107] ['a', 'b'] 5 3).1 3 60 = true :=
  mint_then_verify_same_answer macTest [107] ['a', 'b'] 3 5 5 (by decide) (by decide)
    (by decide) (by decide) (by norm_num [U64MAX]) (by norm_num [U64MAX]) (by omega)

/-- C2: an unexpired token minted for `answer` verifies as `false`
against any `wrong ≠ answer` digit under the same secret and ttl = 60.
With the HMAC opaque, the statement carries the collision-freedom
hypothesis that the recomputed MAC under `wrong` differs from the minted
MAC — the property HMAC-SHA256 provides except with negligible
probability. -/
theorem mint_then_verify_wrong_answer (mac : MacFn) (secret : List Nat) (nonce : List Char)
    (answer wrong ts now : Nat) (hlo : 1 ≤ answer) (hhi : answer ≤ 9)
    (hwlo : 1 ≤ wrong) (hwhi : wrong ≤ 9) (hne : wrong ≠ answer)
    (hnonce : ':' ∉ nonce)
    (hmac : ∀ b ∈ mac secret nonce answer ts, b < 256)
    (hcol : mac secret nonce wrong ts ≠ mac secret nonce answer ts)
    (hts : ts ≤ U64MAX) (hnow : now ≤ U64MAX) (hfresh : now ≤ ts + 60) :
    verify mac now secret (build_challenge_id mac secret nonce ts answer).1 wrong 60 = false := by
  unfold build_challenge_id verify
  dsimp only
  have hsplit : splitColon (nonce ++ ':' :: (natChars ts ++ ':' :: b64encode (mac secret nonce answer ts))) = [nonce, natChars ts, b64encode (mac secret nonce answer ts)] := by
    rw [splitColon_append _ _ hnonce, splitColon_append _ _ (colon_not_mem_natChars ts),
      splitColon_eq_single _ (colon_not_mem_b64encode _)]
  rw [hsplit]
  simp only [parseU64_natChars ts hts]
  rw [if_neg (show ¬ now > satAdd64 ts 60 by simp only [satAdd64, U64MAX] at hts hnow ⊢; omega)]
  rw [b64decode_encode _ hmac]
  dsimp only
  by_cases hlen : (mac secret nonce answer ts).length ≠ (mac secret nonce wrong ts).length
  · rw [if_pos hlen]
  · rw [if_neg hlen]
    exact decide_eq_false hcol

theorem mint_then_verify_wrong_answer_witness :
    verify macTest 5 [107] (build_challenge_id macTest [107] ['a', 'b'] 5 3).1 4 60 = false :=
  mint_then_verify_wrong_answer macTest [107] ['a', 'b'] 3 4 5 5 (by decide) (by decide)
    (by decide) (by decide) (by decide) (by decide) (by decide) (by decide)
    (by norm_num [U64MAX]) (by norm_num [U64MAX]) (by omega)

/-- C3 counterexample: the code only requires three colon-separated
fields, not three non-empty ones.  The token `":0:" ++ base64(mac)` has
an empty nonce field, yet verifies as `true` when the recomputed MAC
matches the authenticator. -/
theorem verify_true_on_empty_nonce_field :
    splitColon (':' :: '0' :: ':' :: b64encode (List.replicate 32 3)) =
      [[], ['0'], b64encode (List.replicate 32 3)] ∧
    verify macTest 0 [] (':' :: '0' :: ':' :: b64encode (List.replicate 32 3)) 3 60 = true := by
  decide

/-- C3 (amended): `challenge::verify` returns `false` unless the token
splits on `:` into exactly three fields whose second parses as a `u64`
(hence is non-empty) and whose third base64-decodes to exactly the
recomputed MAC bytes; the nonce field, however, is not required to be
non-empty. -/
theorem verify_true_implies_shape (mac : MacFn) (now : Nat) (secret : List Nat)
    (id : List Char) (idx ttl : Nat)
    (h : verify mac now secret id idx ttl = true) :
    (splitColon id).length = 3 ∧
    (parseU64 ((splitColon id).getD 1 [])).isSome = true ∧
    (splitColon id).getD 1 [] ≠ [] ∧
    b64decode ((splitColon id).getD 2 []) =
      some (mac secret ((splitColon id).getD 0 []) idx
        ((parseU64 ((splitColon id).getD 1 [])).getD 0)) := by
  unfold verify at h
  rcases hsp : splitColon id with _ | ⟨n1, _ | ⟨n2, _ | ⟨n3, _ | _⟩⟩⟩ <;> rw [hsp] at h <;>
    simp only [] at h
  case cons.cons.cons.nil =>
    rcases hp : parseU64 n2 with _ | ts <;> rw [hp] at h <;> dsimp only at h
    · simp at h
    · by_cases hexp : now > satAdd64 ts ttl
      · rw [if_pos hexp] at h
        simp at h
      · rw [if_neg hexp] at h
        rcases hd : b64decode n3 with _ | ex <;> rw [hd] at h <;> dsimp only at h
        · simp at h
        · by_cases hl : ex.length ≠ (mac secret n1 idx ts).length
          · rw [if_pos hl] at h
            simp at h
          · rw [if_neg hl] at h
            have hex : mac secret n1 idx ts = ex := of_decide_eq_true h
            refine ⟨by simp [hsp], ?_, ?_, ?_⟩
            · simp [hsp, hp]
            · intro hnil
              simp only [List.getD] at hnil
              simp at hnil
              rw [hnil] at hp
              exact absurd hp (by rw [parseU64_nil]; simp)
            · simp [hsp, hp, hd, hex]
  all_goals simp at h

theorem verify_true_implies_shape_witness :
    (splitColon (':' :: '0' :: ':' :: b64encode (List.replicate 32 3))).length = 3 ∧
    (parseU64 ((splitColon (':' :: '0' :: ':' :: b64encode (List.replicate 32 3))).getD 1 [])).isSome = true ∧
    (splitColon (':' :: '0' :: ':' :: b64encode (List.replicate 32 3))).getD 1 [] ≠ [] ∧
    b64decode ((splitColon (':' :: '0' :: ':' :: b64encode (List.replicate 32 3))).getD 2 []) =
      some (macTest []
        ((splitColon (':' :: '0' :: ':' :: b64encode (List.replicate 32 3))).getD 0 []) 3
        ((parseU64 ((splitColon (':' :: '0' :: ':' :: b64encode (List.replicate 32 3))).getD 1 [])).getD 0)) :=
  verify_true_implies_shape macTest 0 []
    (':' :: '0' :: ':' :: b64encode (List.replicate 32 3)) 3 60 (by decide)

/-- C4: `challenge::verify` returns `false` whenever
`now > timestamp.saturating_add(ttl)` (first conjunct); and with
`ttl = 0` a freshly minted token still verifies in the very second of
minting, because the rejection test is strict (second conjunct). -/
theorem verify_expired_rejected_and_ttl0_same_second :
    (∀ (mac : MacFn) (now : Nat) (secret : List Nat) (id : List Char) (idx ttl : Nat)
        (nonce tsF codeF : List Char) (ts : Nat),
        splitColon id = [nonce, tsF, codeF] → parseU64 tsF = some ts →
        now > satAdd64 ts ttl →
        verify mac now secret id idx ttl = false) ∧
    (∀ (mac : MacFn) (secret : List Nat) (nonce : List Char) (answer ts : Nat),
        ':' ∉ nonce → (∀ b ∈ mac secret nonce answer ts, b < 256) → ts ≤ U64MAX →
        verify mac ts secret (build_challenge_id mac secret nonce ts answer).1 answer 0 = true) := by
  constructor
  · intro mac now secret id idx ttl nonce tsF codeF ts hsp hp hexp
    simp only [verify, hsp, hp, if_pos hexp]
  · intro mac secret nonce answer ts hnonce hmac hts
    exact verify_mint mac secret nonce answer ts ts 0 hnonce hmac hts hts (by omega)

theorem verify_expired_rejected_and_ttl0_witness :
    verify macTest 1000 [] [':', '9', ':'] 1 5 = false ∧
    verify macTest 7 [2] (build_challenge_id macTest [2] ['n'] 7 4).1 4 0 = true :=
  ⟨verify_expired_rejected_and_ttl0_same_second.1 macTest 1000 [] [':', '9', ':'] 1 5
      [] ['9'] [] 9 (by decide) (by decide) (by decide),
    verify_expired_rejected_and_ttl0_same_second.2 macTest [2] ['n'] 4 7 (by decide)
      (by decide) (by norm_num [U64MAX])⟩

/-! ## Registry (`src/registry.rs`) -/

/-- Challenge ids as stored in the registry. -/
abbrev ChallengeId := List Char

/-- `RegistryCheckResult` from `src/registry.rs`. -/
inductive RegistryCheckResult
  | Ok
  | AlreadyVerified
  | NotRegistered
  | MaxAttemptsLimitExceeded
deriving DecidableEq

/-- `ChallengeStatus` from `src/registry.rs`; `attempts_count` is a
`u16` kept in saturating range by `note_attempt`. -/
structure ChallengeStatus where
  verified : Bool
  attempts_count : Nat
  timestamp : Nat
deriving DecidableEq

/-- The timing wheel of `src/registry.rs`. -/
structure Wheel where
  buckets : List (List ChallengeId)
  pos : Nat
  last_tick : Nat
  len : Nat
deriving DecidableEq

/-- `ChallengeInMemoryRegistry`: the `DashMap` cache is an association
list (its observable behavior: per-key lookup, insert replaces, remove
deletes), plus `max_attempts`, `ttl` and the wheel. -/
structure Registry where
  cache : List (ChallengeId × ChallengeStatus)
  max_attempts : Nat
  ttl : Nat
  wheel : Wheel
deriving DecidableEq

/-- `DashMap::get`. -/
def cacheGet : List (ChallengeId × ChallengeStatus) → ChallengeId → Option ChallengeStatus
  | [], _ => none
  | (k, v) :: rest, i => if k = i then some v else cacheGet rest i

/-- `DashMap::insert` (replaces any existing entry for the key). -/
def cacheInsert (cache : List (ChallengeId × ChallengeStatus)) (i : ChallengeId)
    (cs : ChallengeStatus) : List (ChallengeId × ChallengeStatus) :=
  (i, cs) :: cache.filter (fun p => decide (p.1 ≠ i))

/-- `DashMap::remove`. -/
def cacheRemove (cache : List (ChallengeId × ChallengeStatus)) (i : ChallengeId) :
    List (ChallengeId × ChallengeStatus) :=
  cache.filter (fun p => decide (p.1 ≠ i))

/-- The body of the drain loop in `advance_wheel`: a drained id is
removed from the cache when still present and genuinely expired
(`now.saturating_sub(timestamp) >= ttl`). -/
def expireStep (now ttl : Nat) (cache : List (ChallengeId × ChallengeStatus))
    (i : ChallengeId) : List (ChallengeId × ChallengeStatus) :=
  match cacheGet cache i with
  | some cs => if now - cs.timestamp ≥ ttl then cacheRemove cache i else cache
  | none => cache

/-- `for id in expired_ids { ... }`. -/
def expireIds (now ttl : Nat) (cache : List (ChallengeId × ChallengeStatus))
    (ids : List ChallengeId) : List (ChallengeId × ChallengeStatus) :=
  ids.foldl (expireStep now ttl) cache

/-- The `for _ in 0..steps` loop of `advance_wheel`: rotate the cursor,
drain the bucket under it, expire the drained ids. -/
def advanceLoop (now ttl : Nat) :
    Nat → List (ChallengeId × ChallengeStatus) → Wheel →
      List (ChallengeId × ChallengeStatus) × Wheel
  | 0, cache, w => (cache, w)
  | steps + 1, cache, w =>
    let pos := (w.pos + 1) % w.len
    let ids := w.buckets.getD pos []
    let buckets := w.buckets.set pos []
    advanceLoop now ttl steps (expireIds now ttl cache ids)
      { w with pos := pos, buckets := buckets }

/-- `ChallengeInMemoryRegistry::advance_wheel`: no-op when
`now <= last_tick`; otherwise run `min(now - last_tick, len)` drain
steps and set `last_tick = now`. -/
def Registry.advance_wheel (now : Nat) (r : Registry) : Registry :=
  if now ≤ r.wheel.last_tick then r
  else
    let steps := min (now - r.wheel.last_tick) r.wheel.len
    let p := advanceLoop now r.ttl steps r.cache r.wheel
    { r with cache := p.1, wheel := { p.2 with last_tick := now } }

/-- `ChallengeInMemoryRegistry::new`. -/
def Registry.new (now ttl max_attempts : Nat) : Registry :=
  let len := max ttl 1
  { cache := []
    max_attempts := max_attempts
    ttl := ttl
    wheel := { buckets := List.replicate len [], pos := now % len, last_tick := now, len := len } }

/-- `ChallengeInMemoryRegistry::schedule_expiry`: push the id into the
bucket at `(now + ttl) % len`. -/
def Registry.schedule_expiry (now : Nat) (i : ChallengeId) (r : Registry) : Registry :=
  let target := (now + r.ttl) % r.wheel.len
  { r with
    wheel := { r.wheel with
      buckets := r.wheel.buckets.set target (r.wheel.buckets.getD target [] ++ [i]) } }

/-- `ChallengeRegistry::register` for the in-memory registry: advance
the wheel, insert a fresh record, schedule expiry. -/
def Registry.register (now : Nat) (i : ChallengeId) (r : Registry) : Registry :=
  let r1 := Registry.advance_wheel now r
  let r2 := { r1 with cache := cacheInsert r1.cache i ⟨false, 0, now⟩ }
  Registry.schedule_expiry now i r2

/-- `ChallengeRegistry::check` for the in-memory registry; the registry
is mutated by the wheel advance, so the updated state is returned with
the result. -/
def Registry.check (now : Nat) (i : ChallengeId) (r : Registry) :
    RegistryCheckResult × Registry :=
  let r1 := Registry.advance_wheel now r
  match cacheGet r1.cache i with
  | some cs =>
    if cs.verified then (RegistryCheckResult.AlreadyVerified, r1)
    else if cs.attempts_count ≥ r1.max_attempts then
      (RegistryCheckResult.MaxAttemptsLimitExceeded, r1)
    else if now - cs.timestamp ≤ r1.ttl then (RegistryCheckResult.Ok, r1)
    else (RegistryCheckResult.NotRegistered, r1)
  | none => (RegistryCheckResult.NotRegistered, r1)

/-- `ChallengeRegistry::verify` for the in-memory registry: set
`verified = true` when the record exists. -/
def Registry.verify (i : ChallengeId) (r : Registry) : Registry :=
  match cacheGet r.cache i with
  | some cs => { r with cache := cacheInsert r.cache i { cs with verified := true } }
  | none => r

/-- `ChallengeRegistry::note_attempt` for the in-memory registry: on
failure, saturating-increment the `u16` attempts counter. -/
def Registry.note_attempt (i : ChallengeId) (success : Bool) (r : Registry) : Registry :=
  match cacheGet r.cache i with
  | some cs =>
    if !success then
      { r with
        cache := cacheInsert r.cache i
          { cs with attempts_count := min (cs.attempts_count + 1) U16MAX } }
    else r
  | none => r

/-! ## Manager (`src/manager.rs`) -/

/-- `CaptchaError` from `src/error.rs`. -/
inductive CaptchaError
  | InvalidInput (msg : String)
  | DecodeError (msg : String)
  | EncodeError (msg : String)
  | Registry (r : RegistryCheckResult)
  | Internal (msg : String)
deriving DecidableEq

/-- `CaptchaManager::verify_challenge`: reject empty ids and
out-of-range guesses, consult the registry when present (propagating a
non-`Ok` result as a typed `Registry` error), then run the protocol
verification and update the registry with the outcome.  The boolean and
the updated registry (when present) are returned. -/
def verify_challenge (mac : MacFn) (now : Nat) (secret : List Nat) (ttl : Nat)
    (registry : Option Registry) (challenge_id : ChallengeId) (selected_index : Nat) :
    Except CaptchaError (Bool × Option Registry) :=
  if challenge_id = [] then
    Except.error (CaptchaError.InvalidInput "Challenge ID cannot be empty")
  else if selected_index = 0 ∨ selected_index > 9 then
    Except.error (CaptchaError.InvalidInput "Selected index out of bounds")
  else
    let pre : Except CaptchaError (Option Registry) :=
      match registry with
      | some r =>
        let p := Registry.check now challenge_id r
        if p.1 = RegistryCheckResult.Ok then Except.ok (some p.2)
        else Except.error (CaptchaError.Registry p.1)
      | none => Except.ok none
    match pre with
    | Except.error e => Except.error e
    | Except.ok reg1 =>
      let valid := verify mac now secret challenge_id selected_index ttl
      if valid then Except.ok (true, reg1.map (Registry.verify challenge_id))
      else Except.ok (false, reg1.map (Registry.note_attempt challenge_id false))

deriving instance DecidableEq for Except

/-- The `check` decision chain exactly as the specification words it
(the comparison definition for the refinement claim C6): no record →
`NotRegistered`; `verified` → `AlreadyVerified`; `attempts ≥
max_attempts` → `MaxAttemptsLimitExceeded`; `now − created_at > ttl` →
`NotRegistered`; otherwise `Ok`. -/
def spec_check_result (now : Nat) (i : ChallengeId) (r : Registry) : RegistryCheckResult :=
  match cacheGet r.cache i with
  | none => RegistryCheckResult.NotRegistered
  | some cs =>
    if cs.verified then RegistryCheckResult.AlreadyVerified
    else if cs.attempts_count ≥ r.max_attempts then RegistryCheckResult.MaxAttemptsLimitExceeded
    else if now - cs.timestamp > r.ttl then RegistryCheckResult.NotRegistered
    else RegistryCheckResult.Ok

/-- C6: `check` first advances the wheel and then decides on the
advanced state, and its decision agrees with the specification's
condition chain in the specification's order. -/
theorem check_advances_then_decides (now : Nat) (i : ChallengeId) (r : Registry) :
    Registry.check now i r =
      (spec_check_result now i (Registry.advance_wheel now r), Registry.advance_wheel now r) := by
  unfold Registry.check spec_check_result
  dsimp only
  cases hg : cacheGet (Registry.advance_wheel now r).cache i with
  | none => rfl
  | some cs =>
    by_cases h1 : cs.verified
    · simp [h1]
    · simp only [h1, if_false, Bool.false_eq_true]
      by_cases h2 : cs.attempts_count ≥ (Registry.advance_wheel now r).max_attempts
      · simp [h2]
      · simp only [h2, if_false]
        by_cases h3 : now - cs.timestamp ≤ (Registry.advance_wheel now r).ttl
        · rw [if_pos h3, if_neg (by omega)]
        · rw [if_neg h3, if_pos (by omega)]

/-- The registry state after a `verify_challenge` call when a registry
`r` is present: unchanged on input validation failure, the post-advance
state on registry rejection, and the post-advance state updated with
`verify` / `note_attempt` according to the protocol outcome. -/
def verify_challenge_registry_state (mac : MacFn) (now : Nat) (secret : List Nat) (ttl : Nat)
    (r : Registry) (i : ChallengeId) (idx : Nat) : Registry :=
  if i = [] ∨ idx = 0 ∨ idx > 9 then r
  else
    let p := Registry.check now i r
    if p.1 = RegistryCheckResult.Ok then
      if verify mac now secret i idx ttl then Registry.verify i p.2
      else Registry.note_attempt i false p.2
    else p.2

/-- C5: `verify_challenge` yields `InvalidInput` exactly when the id is
empty or the guess is outside [1..9]; with a registry present and valid
input it yields `Registry e` exactly when `check` is non-`Ok` (with `e`
that result); in every remaining case it yields `Ok` of the protocol
boolean, so the cryptographic outcome never surfaces as an error. -/
theorem verify_challenge_error_classes (mac : MacFn) (now : Nat) (secret : List Nat)
    (ttl : Nat) (registry : Option Registry) (i : ChallengeId) (idx : Nat) :
    ((∃ m, verify_challenge mac now secret ttl registry i idx =
        Except.error (CaptchaError.InvalidInput m)) ↔ (i = [] ∨ idx = 0 ∨ idx > 9)) ∧
    (∀ r, registry = some r → ¬(i = [] ∨ idx = 0 ∨ idx > 9) →
      ((verify_challenge mac now secret ttl registry i idx =
          Except.error (CaptchaError.Registry (Registry.check now i r).1)) ↔
        (Registry.check now i r).1 ≠ RegistryCheckResult.Ok) ∧
      ((Registry.check now i r).1 = RegistryCheckResult.Ok →
        verify_challenge mac now secret ttl registry i idx =
          Except.ok (verify mac now secret i idx ttl,
            some (verify_challenge_registry_state mac now secret ttl r i idx)))) ∧
    (registry = none → ¬(i = [] ∨ idx = 0 ∨ idx > 9) →
      verify_challenge mac now secret ttl registry i idx =
        Except.ok (verify mac now secret i idx ttl, none)) := by
  unfold verify_challenge verify_challenge_registry_state
  by_cases hi : i = []
  · simp [hi]
  · by_cases hx : idx = 0 ∨ idx > 9
    · rcases hx with hx | hx <;> simp [hi, hx]
    · have hx0 : ¬ idx = 0 := fun h => hx (Or.inl h)
      have hx9 : ¬ idx > 9 := fun h => hx (Or.inr h)
      cases registry with
      | none =>
        cases hv : verify mac now secret i idx ttl <;> simp [hi, hx0, hx9, hv]
      | some r =>
        by_cases hok : (Registry.check now i r).1 = RegistryCheckResult.Ok <;>
          cases hv : verify mac now secret i idx ttl <;>
            simp [hi, hx0, hx9, hok, hv]

theorem verify_challenge_error_classes_witness :
    verify_challenge macTest 0 [] 60 none ['a'] 3 =
      Except.ok (verify macTest 0 [] ['a'] 3 60, none) :=
  (verify_challenge_error_classes macTest 0 [] 60 none ['a'] 3).2.2 rfl (by decide)

/-- C7 counterexample: a direct registry-level `note_attempt(id, false)`
saturates only at the `u16` bound, not at `max_attempts`: with
`max_attempts = 0`, registering and then noting one failed attempt
yields a reachable state whose record has `attempts_count = 1 > 0 =
max_attempts`. -/
theorem note_attempt_exceeds_max_attempts :
    cacheGet (Registry.note_attempt ['a'] false
        (Registry.register 0 ['a'] (Registry.new 0 60 0))).cache ['a'] =
      some ⟨false, 1, 0⟩ ∧
    (Registry.note_attempt ['a'] false
        (Registry.register 0 ['a'] (Registry.new 0 60 0))).max_attempts = 0 := by
  decide

/-- Number of wheel buckets containing a given id. -/
def bucketsContaining (i : ChallengeId) (w : Wheel) : Nat :=
  w.buckets.countP (fun b => decide (i ∈ b))

/-- C9 counterexample: registering the same id twice (one second apart,
ttl 60) leaves the id scheduled in two distinct wheel buckets at once. -/
theorem reregister_puts_id_in_two_buckets :
    bucketsContaining ['a']
      (Registry.register 101 ['a']
        (Registry.register 100 ['a'] (Registry.new 100 60 5))).wheel = 2 := by
  decide

/-! ## Registry invariants -/

theorem cacheGet_mem : ∀ {cache : List (ChallengeId × ChallengeStatus)} {i : ChallengeId}
    {cs : ChallengeStatus}, cacheGet cache i = some cs → (i, cs) ∈ cache
  | [], _, _, h => by simp [cacheGet] at h
  | (k, v) :: rest, i, cs, h => by
    rw [cacheGet] at h
    by_cases hk : k = i
    · rw [if_pos hk] at h
      injection h with h
      rw [← hk, ← h]
      exact List.mem_cons_self _ _
    · rw [if_neg hk] at h
      exact List.mem_cons_of_mem _ (cacheGet_mem h)

theorem mem_cacheInsert {cache : List (ChallengeId × ChallengeStatus)} {i : ChallengeId}
    {cs : ChallengeStatus} {p : ChallengeId × ChallengeStatus}
    (h : p ∈ cacheInsert cache i cs) : p = (i, cs) ∨ p ∈ cache := by
  unfold cacheInsert at h
  rcases List.mem_cons.mp h with h | h
  · exact Or.inl h
  · exact Or.inr (List.mem_of_mem_filter h)

theorem mem_expireStep {now ttl : Nat} {cache : List (ChallengeId × ChallengeStatus)}
    {i : ChallengeId} {p : ChallengeId × ChallengeStatus}
    (h : p ∈ expireStep now ttl cache i) : p ∈ cache := by
  unfold expireStep at h
  split at h
  · split at h
    · exact List.mem_of_mem_filter h
    · exact h
  · exact h

theorem mem_expireIds {now ttl : Nat} :
    ∀ {ids : List ChallengeId} {cache : List (ChallengeId × ChallengeStatus)}
      {p : ChallengeId × ChallengeStatus}, p ∈ expireIds now ttl cache ids → p ∈ cache := by
  intro ids
  induction ids with
  | nil => intro _ _ h; exact h
  | cons x xs ih =>
    intro cache p h
    unfold expireIds at h ih
    rw [List.foldl_cons] at h
    exact mem_expireStep (ih h)

theorem mem_advanceLoop_cache {now ttl : Nat} :
    ∀ {steps : Nat} {cache : List (ChallengeId × ChallengeStatus)} {w : Wheel}
      {p : ChallengeId × ChallengeStatus},
      p ∈ (advanceLoop now ttl steps cache w).1 → p ∈ cache := by
  intro steps
  induction steps with
  | zero => intro _ _ _ h; exact h
  | succ n ih =>
    intro cache w p h
    rw [advanceLoop] at h
    exact mem_expireIds (ih h)

theorem advance_wheel_cache_subset {now : Nat} {r : Registry}
    {p : ChallengeId × ChallengeStatus}
    (h : p ∈ (Registry.advance_wheel now r).cache) : p ∈ r.cache := by
  unfold Registry.advance_wheel at h
  split at h
  · exact h
  · exact mem_advanceLoop_cache h

theorem advance_wheel_max (now : Nat) (r : Registry) :
    (Registry.advance_wheel now r).max_attempts = r.max_attempts := by
  unfold Registry.advance_wheel
  split <;> rfl

theorem advance_wheel_ttl (now : Nat) (r : Registry) :
    (Registry.advance_wheel now r).ttl = r.ttl := by
  unfold Registry.advance_wheel
  split <;> rfl

theorem check_snd (now : Nat) (i : ChallengeId) (r : Registry) :
    (Registry.check now i r).2 = Registry.advance_wheel now r := by
  unfold Registry.check
  dsimp only
  cases cacheGet (Registry.advance_wheel now r).cache i with
  | none => rfl
  | some cs =>
    dsimp only
    split_ifs <;> rfl

theorem rverify_wheel (i : ChallengeId) (r : Registry) :
    (Registry.verify i r).wheel = r.wheel := by
  unfold Registry.verify
  split <;> rfl

theorem rverify_max (i : ChallengeId) (r : Registry) :
    (Registry.verify i r).max_attempts = r.max_attempts := by
  unfold Registry.verify
  split <;> rfl

theorem mem_rverify_cache {i : ChallengeId} {r : Registry} {p : ChallengeId × ChallengeStatus}
    (h : p ∈ (Registry.verify i r).cache) :
    (∃ cs, cacheGet r.cache i = some cs ∧ p = (i, { cs with verified := true })) ∨
      p ∈ r.cache := by
  unfold Registry.verify at h
  split at h
  · rename_i cs hg
    rcases mem_cacheInsert h with h | h
    · exact Or.inl ⟨cs, hg, h⟩
    · exact Or.inr h
  · exact Or.inr h

theorem note_attempt_wheel (i : ChallengeId) (s : Bool) (r : Registry) :
    (Registry.note_attempt i s r).wheel = r.wheel := by
  unfold Registry.note_attempt
  split
  · split <;> rfl
  · rfl

theorem note_attempt_max (i : ChallengeId) (s : Bool) (r : Registry) :
    (Registry.note_attempt i s r).max_attempts = r.max_attempts := by
  unfold Registry.note_attempt
  split
  · split <;> rfl
  · rfl

theorem mem_note_attempt_cache {i : ChallengeId} {r : Registry}
    {p : ChallengeId × ChallengeStatus}
    (h : p ∈ (Registry.note_attempt i false r).cache) :
    (∃ cs, cacheGet r.cache i = some cs ∧
        p = (i, { cs with attempts_count := min (cs.attempts_count + 1) U16MAX })) ∨
      p ∈ r.cache := by
  unfold Registry.note_attempt at h
  split at h
  · rename_i cs hg
    simp only [Bool.not_false, if_true] at h
    rcases mem_cacheInsert h with h | h
    · exact Or.inl ⟨cs, hg, h⟩
    · exact Or.inr h
  · exact Or.inr h

/-- Every record's attempt counter is bounded by `max_attempts`. -/
def AttInv (r : Registry) : Prop :=
  ∀ p ∈ r.cache, p.2.attempts_count ≤ r.max_attempts

theorem AttInv_advance {now : Nat} {r : Registry} (h : AttInv r) :
    AttInv (Registry.advance_wheel now r) := by
  intro p hp
  rw [advance_wheel_max]
  exact h p (advance_wheel_cache_subset hp)

theorem AttInv_register {now : Nat} {i : ChallengeId} {r : Registry} (h : AttInv r) :
    AttInv (Registry.register now i r) := by
  intro p hp
  have hmax : (Registry.register now i r).max_attempts = r.max_attempts := by
    show (Registry.advance_wheel now r).max_attempts = r.max_attempts
    exact advance_wheel_max now r
  rw [hmax]
  have hp' : p ∈ cacheInsert (Registry.advance_wheel now r).cache i ⟨false, 0, now⟩ := hp
  rcases mem_cacheInsert hp' with h1 | h1
  · rw [h1]
    exact Nat.zero_le _
  · have := @AttInv_advance now r h p h1
    rwa [advance_wheel_max] at this

theorem AttInv_rverify {i : ChallengeId} {r : Registry} (h : AttInv r) :
    AttInv (Registry.verify i r) := by
  intro p hp
  rw [rverify_max]
  rcases mem_rverify_cache hp with ⟨cs, hg, hpe⟩ | hm
  · have hc := h _ (cacheGet_mem hg)
    rw [hpe]
    exact hc
  · exact h _ hm

theorem AttInv_note_attempt {i : ChallengeId} {r : Registry} (h : AttInv r)
    (hlt : ∀ cs, cacheGet r.cache i = some cs → cs.attempts_count < r.max_attempts) :
    AttInv (Registry.note_attempt i false r) := by
  intro p hp
  rw [note_attempt_max]
  rcases mem_note_attempt_cache hp with ⟨cs, hg, hpe⟩ | hm
  · rw [hpe]
    have := hlt cs hg
    show min (cs.attempts_count + 1) U16MAX ≤ r.max_attempts
    omega
  · exact h _ hm

theorem check_ok_attempts {now : Nat} {i : ChallengeId} {r : Registry} {cs : ChallengeStatus}
    (hok : (Registry.check now i r).1 = RegistryCheckResult.Ok)
    (hg : cacheGet (Registry.advance_wheel now r).cache i = some cs) :
    cs.attempts_count < (Registry.advance_wheel now r).max_attempts := by
  unfold Registry.check at hok
  dsimp only at hok
  rw [hg] at hok
  dsimp only at hok
  by_cases h1 : cs.verified
  · simp [h1] at hok
  · by_cases h2 : cs.attempts_count ≥ (Registry.advance_wheel now r).max_attempts
    · simp [h1, h2] at hok
    · omega

/-- The registry transitions executed by the Manager: `register` (from
`generate_challenge`), `check` and the `verify_challenge` flow.  A
failed attempt is only noted inside `verify_challenge`, after `check`
returned `Ok`. -/
inductive MStep (mac : MacFn) (secret : List Nat) (ttl : Nat) : Registry → Registry → Prop
  | register (now : Nat) (i : ChallengeId) (r : Registry) :
      MStep mac secret ttl r (Registry.register now i r)
  | check (now : Nat) (i : ChallengeId) (r : Registry) :
      MStep mac secret ttl r (Registry.check now i r).2
  | verify_challenge (now : Nat) (i : ChallengeId) (idx : Nat) (r : Registry) :
      MStep mac secret ttl r (verify_challenge_registry_state mac now secret ttl r i idx)

theorem MStep_AttInv {mac : MacFn} {secret : List Nat} {ttl : Nat} {a b : Registry}
    (hstep : MStep mac secret ttl a b) (h : AttInv a) : AttInv b := by
  cases hstep with
  | register now i => exact AttInv_register h
  | check now i =>
    rw [check_snd]
    exact AttInv_advance h
  | verify_challenge now i idx =>
    unfold verify_challenge_registry_state
    split
    · exact h
    · dsimp only
      have hadv : AttInv (Registry.check now i a).2 := by
        rw [check_snd]
        exact AttInv_advance h
      split
      · rename_i hok
        split
        · exact AttInv_rverify hadv
        · refine AttInv_note_attempt hadv ?_
          intro cs hg
          rw [check_snd] at hg ⊢
          exact check_ok_attempts hok hg
      · exact hadv

/-- C7 (amended): every registry state reachable through the Manager's
operation sequence satisfies `attempts_count ≤ max_attempts` for every
record; the bound is enforced because a failed attempt is only noted
when `check` returned `Ok` (so `attempts_count < max_attempts` held).
A direct registry-level `note_attempt` is not so protected. -/
theorem manager_reachable_attempts_le_max (mac : MacFn) (secret : List Nat) (ttl : Nat)
    (now0 ttl0 ma0 : Nat) (r : Registry)
    (h : Relation.ReflTransGen (MStep mac secret ttl) (Registry.new now0 ttl0 ma0) r) :
    AttInv r := by
  induction h with
  | refl =>
    intro p hp
    simp [Registry.new] at hp
  | tail _ hstep ih => exact MStep_AttInv hstep ih

theorem manager_reachable_attempts_witness :
    AttInv (Registry.register 3 ['a'] (Registry.new 0 5 2)) :=
  manager_reachable_attempts_le_max macTest [] 60 0 5 2 _
    (Relation.ReflTransGen.single (MStep.register 3 ['a'] _))

/-! ## Wheel occupancy -/

/-- Number of occurrences of an id in one bucket. -/
def countId (i : ChallengeId) : List ChallengeId → Nat
  | [] => 0
  | x :: rest => (if x = i then 1 else 0) + countId i rest

/-- Total number of scheduled references to an id across all buckets. -/
def wheelOcc (i : ChallengeId) (w : Wheel) : Nat :=
  (w.buckets.map (countId i)).sum

theorem countId_append (i : ChallengeId) (xs ys : List ChallengeId) :
    countId i (xs ++ ys) = countId i xs + countId i ys := by
  induction xs with
  | nil => simp [countId]
  | cons x rest ih =>
    simp only [List.cons_append, countId, List.append_eq, ih]
    omega

theorem sum_map_countId_set_nil_le (i : ChallengeId) :
    ∀ (bs : List (List ChallengeId)) (j : Nat),
      ((bs.set j []).map (countId i)).sum ≤ (bs.map (countId i)).sum := by
  intro bs
  induction bs with
  | nil => intro j; simp
  | cons b rest ih =>
    intro j
    cases j with
    | zero =>
      simp only [List.set_cons_zero, List.map_cons, List.sum_cons, countId]
      omega
    | succ n =>
      simp only [List.set_cons_succ, List.map_cons, List.sum_cons]
      exact Nat.add_le_add_left (ih n) _

theorem sum_map_countId_set_append_le (i x : ChallengeId) :
    ∀ (bs : List (List ChallengeId)) (j : Nat),
      ((bs.set j (bs.getD j [] ++ [x])).map (countId i)).sum ≤
        (bs.map (countId i)).sum + countId i [x] := by
  intro bs
  induction bs with
  | nil => intro j; simp
  | cons b rest ih =>
    intro j
    cases j with
    | zero =>
      simp only [List.set_cons_zero, List.getD_cons_zero, List.map_cons, List.sum_cons,
        countId_append]
      omega
    | succ n =>
      simp only [List.set_cons_succ, List.getD_cons_succ, List.map_cons, List.sum_cons]
      have := ih n
      omega

theorem sum_map_countId_set_append_eq (i x : ChallengeId) :
    ∀ (bs : List (List ChallengeId)) (j : Nat), j < bs.length →
      ((bs.set j (bs.getD j [] ++ [x])).map (countId i)).sum =
        (bs.map (countId i)).sum + countId i [x] := by
  intro bs
  induction bs with
  | nil => intro j hj; simp at hj
  | cons b rest ih =>
    intro j hj
    cases j with
    | zero =>
      simp only [List.set_cons_zero, List.getD_cons_zero, List.map_cons, List.sum_cons,
        countId_append]
      omega
    | succ n =>
      simp only [List.set_cons_succ, List.getD_cons_succ, List.map_cons, List.sum_cons]
      have := ih n (by simpa using hj)
      omega

theorem getD_set_self : ∀ (bs : List (List ChallengeId)) (t : Nat) (v : List ChallengeId),
    t < bs.length → (bs.set t v).getD t [] = v := by
  intro bs
  induction bs with
  | nil => intro t v ht; simp at ht
  | cons b rest ih =>
    intro t v ht
    cases t with
    | zero => simp
    | succ n =>
      simp only [List.set_cons_succ, List.getD_cons_succ]
      exact ih n v (by simpa using ht)

theorem advanceLoop_wheelOcc_le {now ttl : Nat} (i : ChallengeId) :
    ∀ (steps : Nat) (cache : List (ChallengeId × ChallengeStatus)) (w : Wheel),
      wheelOcc i (advanceLoop now ttl steps cache w).2 ≤ wheelOcc i w := by
  intro steps
  induction steps with
  | zero => intro _ _; exact Nat.le_refl _
  | succ n ih =>
    intro cache w
    rw [advanceLoop]
    refine Nat.le_trans (ih _ _) ?_
    exact sum_map_countId_set_nil_le i w.buckets _

theorem advance_wheel_wheelOcc_le (now : Nat) (i : ChallengeId) (r : Registry) :
    wheelOcc i (Registry.advance_wheel now r).wheel ≤ wheelOcc i r.wheel := by
  unfold Registry.advance_wheel
  split
  · exact Nat.le_refl _
  · exact advanceLoop_wheelOcc_le i _ r.cache r.wheel

theorem advanceLoop_len {now ttl : Nat} :
    ∀ (steps : Nat) (cache : List (ChallengeId × ChallengeStatus)) (w : Wheel),
      (advanceLoop now ttl steps cache w).2.len = w.len := by
  intro steps
  induction steps with
  | zero => intro _ _; rfl
  | succ n ih =>
    intro cache w
    rw [advanceLoop]
    exact ih _ _

theorem advanceLoop_buckets_length {now ttl : Nat} :
    ∀ (steps : Nat) (cache : List (ChallengeId × ChallengeStatus)) (w : Wheel),
      (advanceLoop now ttl steps cache w).2.buckets.length = w.buckets.length := by
  intro steps
  induction steps with
  | zero => intro _ _; rfl
  | succ n ih =>
    intro cache w
    rw [advanceLoop]
    rw [ih]
    exact List.length_set _ _ _

theorem advance_wheel_len (now : Nat) (r : Registry) :
    (Registry.advance_wheel now r).wheel.len = r.wheel.len := by
  unfold Registry.advance_wheel
  split
  · rfl
  · exact advanceLoop_len _ _ _

theorem advance_wheel_buckets_length (now : Nat) (r : Registry) :
    (Registry.advance_wheel now r).wheel.buckets.length = r.wheel.buckets.length := by
  unfold Registry.advance_wheel
  split
  · rfl
  · exact advanceLoop_buckets_length _ _ _

theorem register_buckets (now : Nat) (i : ChallengeId) (r : Registry) :
    (Registry.register now i r).wheel.buckets =
      (Registry.advance_wheel now r).wheel.buckets.set
        ((now + r.ttl) % (Registry.advance_wheel now r).wheel.len)
        ((Registry.advance_wheel now r).wheel.buckets.getD
          ((now + r.ttl) % (Registry.advance_wheel now r).wheel.len) [] ++ [i]) := by
  unfold Registry.register Registry.schedule_expiry
  dsimp only
  rw [advance_wheel_ttl]

theorem register_wheelOcc_le (now : Nat) (i j : ChallengeId) (r : Registry) :
    wheelOcc j (Registry.register now i r).wheel ≤
      wheelOcc j (Registry.advance_wheel now r).wheel + countId j [i] := by
  unfold wheelOcc
  rw [register_buckets]
  exact sum_map_countId_set_append_le j i _ _

/-- Each id occurs at most once across the whole wheel. -/
def WheelInv (w : Wheel) : Prop :=
  ∀ i, wheelOcc i w ≤ 1

/-- Registry operation sequences that never re-register an id that is
still scheduled in the wheel. -/
inductive SafeStep : Registry → Registry → Prop
  | register (now : Nat) (i : ChallengeId) (r : Registry)
      (h : wheelOcc i r.wheel = 0) : SafeStep r (Registry.register now i r)
  | check (now : Nat) (i : ChallengeId) (r : Registry) : SafeStep r (Registry.check now i r).2
  | verify (i : ChallengeId) (r : Registry) : SafeStep r (Registry.verify i r)
  | note_attempt (i : ChallengeId) (s : Bool) (r : Registry) :
      SafeStep r (Registry.note_attempt i s r)

theorem SafeStep_WheelInv {a b : Registry} (hstep : SafeStep a b) (h : WheelInv a.wheel) :
    WheelInv b.wheel := by
  cases hstep with
  | register now i =>
    rename_i h0
    intro j
    refine Nat.le_trans (register_wheelOcc_le now i j a) ?_
    by_cases hj : j = i
    · subst hj
      have h1 : wheelOcc j (Registry.advance_wheel now a).wheel = 0 :=
        Nat.le_zero.mp (h0 ▸ advance_wheel_wheelOcc_le now j a)
      simp [h1, countId]
    · have h1 : countId j [i] = 0 := by simp [countId, Ne.symm hj]
      have h2 := advance_wheel_wheelOcc_le now j a
      have h3 := h j
      omega
  | check now i =>
    intro j
    rw [check_snd]
    exact Nat.le_trans (advance_wheel_wheelOcc_le now j a) (h j)
  | verify i =>
    intro j
    rw [rverify_wheel]
    exact h j
  | note_attempt i s =>
    intro j
    rw [note_attempt_wheel]
    exact h j

/-- C9 (amended): in any state reached from a fresh registry by
operation sequences that only register an id while it has no scheduled
reference left in the wheel, every id occurs in at most one bucket
(indeed at most once in the whole wheel).  Re-registering a
still-scheduled id breaks the invariant, as the counterexample shows. -/
theorem no_rereg_wheel_at_most_one (now0 ttl0 ma0 : Nat) (r : Registry)
    (h : Relation.ReflTransGen SafeStep (Registry.new now0 ttl0 ma0) r) :
    WheelInv r.wheel := by
  induction h with
  | refl =>
    intro i
    show ((List.replicate (max ttl0 1) ([] : List ChallengeId)).map (countId i)).sum ≤ 1
    rw [List.map_replicate]
    simp [countId, List.sum_replicate]
  | tail _ hstep ih => exact SafeStep_WheelInv hstep ih

theorem no_rereg_wheel_witness :
    WheelInv (Registry.register 2 ['a'] (Registry.new 1 5 2)).wheel :=
  no_rereg_wheel_at_most_one 1 5 2 _
    (Relation.ReflTransGen.single (SafeStep.register 2 ['a'] _ (by decide)))

/-! ## Register semantics (C10) -/

theorem cacheGet_filter_ne {cache : List (ChallengeId × ChallengeStatus)} {j i : ChallengeId}
    (hj : j ≠ i) :
    cacheGet (cache.filter (fun p => decide (p.1 ≠ i))) j = cacheGet cache j := by
  induction cache with
  | nil => rfl
  | cons p rest ih =>
    obtain ⟨k, v⟩ := p
    by_cases hk : k = i
    · rw [List.filter_cons_of_neg (by simp [hk])]
      rw [ih, cacheGet, if_neg (by rw [hk]; exact fun hh => hj hh.symm)]
    · rw [List.filter_cons_of_pos (by simp [hk])]
      rw [cacheGet, cacheGet, ih]

theorem cacheGet_cacheInsert_self (cache : List (ChallengeId × ChallengeStatus))
    (i : ChallengeId) (cs : ChallengeStatus) :
    cacheGet (cacheInsert cache i cs) i = some cs := by
  unfold cacheInsert
  rw [cacheGet, if_pos rfl]

theorem cacheGet_cacheInsert_ne {cache : List (ChallengeId × ChallengeStatus)}
    {j i : ChallengeId} (cs : ChallengeStatus) (hj : j ≠ i) :
    cacheGet (cacheInsert cache i cs) j = cacheGet cache j := by
  unfold cacheInsert
  rw [cacheGet, if_neg (fun hh => hj hh.symm), cacheGet_filter_ne hj]

/-- What C10 asserts of `register`: the record for the id is
unconditionally overwritten with `verified = false`, `attempts = 0`,
`created_at = now` (other records untouched beyond the wheel advance),
and one additional expiry reference for the id is appended to the
target bucket without removing previously scheduled ones (every id's
total scheduled-reference count is preserved, the registered id's is
incremented by exactly one). -/
def RegisterSpecHolds (now : Nat) (i : ChallengeId) (r : Registry) : Prop :=
  cacheGet (Registry.register now i r).cache i = some ⟨false, 0, now⟩ ∧
  (∀ j, j ≠ i → cacheGet (Registry.register now i r).cache j =
      cacheGet (Registry.advance_wheel now r).cache j) ∧
  wheelOcc i (Registry.register now i r).wheel =
    wheelOcc i (Registry.advance_wheel now r).wheel + 1 ∧
  (∀ j, j ≠ i → wheelOcc j (Registry.register now i r).wheel =
      wheelOcc j (Registry.advance_wheel now r).wheel) ∧
  (Registry.register now i r).wheel.buckets.getD ((now + r.ttl) % r.wheel.len) [] =
    (Registry.advance_wheel now r).wheel.buckets.getD ((now + r.ttl) % r.wheel.len) [] ++ [i]

/-- C10: `register(id)` overwrites the record (resetting `verified`,
`attempts` and `created_at`) and schedules an additional expiry
reference into the wheel without removing a previously scheduled one. -/
theorem register_overwrites_and_adds_ref (now : Nat) (i : ChallengeId) (r : Registry)
    (hlen : 0 < r.wheel.len) (hbl : r.wheel.buckets.length = r.wheel.len) :
    RegisterSpecHolds now i r := by
  have hlen' : (Registry.advance_wheel now r).wheel.len = r.wheel.len := advance_wheel_len now r
  have hbl' : (Registry.advance_wheel now r).wheel.buckets.length = r.wheel.len := by
    rw [advance_wheel_buckets_length, hbl]
  have htarget : (now + r.ttl) % r.wheel.len <
      (Registry.advance_wheel now r).wheel.buckets.length := by
    rw [hbl']
    exact Nat.mod_lt _ hlen
  refine ⟨?_, ?_, ?_, ?_, ?_⟩
  · show cacheGet (cacheInsert (Registry.advance_wheel now r).cache i ⟨false, 0, now⟩) i = _
    exact cacheGet_cacheInsert_self _ _ _
  · intro j hj
    show cacheGet (cacheInsert (Registry.advance_wheel now r).cache i ⟨false, 0, now⟩) j = _
    exact cacheGet_cacheInsert_ne _ hj
  · unfold wheelOcc
    rw [register_buckets, hlen']
    rw [sum_map_countId_set_append_eq i i _ _ htarget]
    simp [countId]
  · intro j hj
    unfold wheelOcc
    rw [register_buckets, hlen']
    rw [sum_map_countId_set_append_eq j i _ _ htarget]
    simp [countId, Ne.symm hj]
  · rw [register_buckets, hlen']
    exact getD_set_self _ _ _ htarget

theorem register_overwrites_witness : RegisterSpecHolds 3 ['b'] (Registry.new 0 5 2) :=
  register_overwrites_and_adds_ref 3 ['b'] (Registry.new 0 5 2) (by decide) (by decide)

/-! ## Sprite composer tile selection (`create_sprite`) -/

/-- The fixed pool of eleven incorrect angles of `create_sprite` (the
`f32` literals are integral degree values, exactly representable). -/
def incorrect_angles : List Nat := [38, 88, 114, 138, 176, 200, 229, 255, 278, 314, 320]

/-- Lines 147–154 of `create_sprite`: the tile list before the final
shuffle — the correct tile at 0° followed by tiles at the first eight
angles of the shuffled incorrect pool (`others`). -/
def tiles_init (others : List Nat) : List (Bool × Nat) :=
  (true, 0) :: (others.take 8).map (fun a => (false, a))

/-- The `correct_number` loop of `create_sprite`: starting from 0, set
`correct_number = i + 1` whenever tile `i` is the correct one. -/
def ccnAux : List (Bool × Nat) → Nat → Nat → Nat
  | [], _, acc => acc
  | (isc, _) :: rest, idx, acc => ccnAux rest (idx + 1) (if isc then idx + 1 else acc)

/-- The `correct_number` returned by `create_sprite` for a tile list. -/
def compute_correct_number (tiles : List (Bool × Nat)) : Nat := ccnAux tiles 0 0

/-- The invariants C8 claims of a successful `create_sprite` run. -/
def SpriteInvariants (tiles : List (Bool × Nat)) : Prop :=
  tiles.length = 9 ∧
  tiles.countP (fun t => t.1) = 1 ∧
  tiles.countP (fun t => decide (t.2 = 0)) = 1 ∧
  (∀ p ∈ tiles, p.1 = false → p.2 ∈ incorrect_angles ∧ p.2 ≠ 0) ∧
  ((tiles.filter (fun t => !t.1)).map Prod.snd).Nodup ∧
  1 ≤ compute_correct_number tiles ∧ compute_correct_number tiles ≤ 9 ∧
  (∀ k, k < tiles.length → (tiles.getD k (false, 0)).1 = true →
    compute_correct_number tiles = k + 1)

theorem ccnAux_last_true :
    ∀ (tiles : List (Bool × Nat)) (k idx acc : Nat), k < tiles.length →
      (tiles.getD k (false, 0)).1 = true →
      (∀ m, k < m → m < tiles.length → (tiles.getD m (false, 0)).1 = false) →
      ccnAux tiles idx acc = idx + k + 1 := by
  intro tiles
  induction tiles with
  | nil => intro k idx acc hk; simp at hk
  | cons t rest ih =>
    intro k idx acc hk htrue hafter
    obtain ⟨b, ang⟩ := t
    cases k with
    | zero =>
      simp only [List.getD_cons_zero] at htrue
      rw [ccnAux, htrue, if_pos rfl]
      have hall : ∀ p ∈ rest, p.1 = false := by
        intro p hp
        obtain ⟨m, hm, hpe⟩ := List.mem_iff_getElem.mp hp
        have hh := hafter (m + 1) (Nat.succ_pos m) (by simpa using Nat.succ_lt_succ hm)
        rw [List.getD_cons_succ] at hh
        rw [List.getD_eq_getElem _ _ hm] at hh
        rw [hpe] at hh
        exact hh
      have : ∀ (l : List (Bool × Nat)) (j a : Nat), (∀ p ∈ l, p.1 = false) →
          ccnAux l j a = a := by
        intro l
        induction l with
        | nil => intro j a _; rfl
        | cons q qrest qih =>
          intro j a hq
          obtain ⟨qb, qa⟩ := q
          have hqb : qb = false := hq (qb, qa) (List.mem_cons_self _ _)
          rw [ccnAux, hqb, if_neg (by simp)]
          exact qih _ _ (fun p hp => hq p (List.mem_cons_of_mem _ hp))
      rw [this rest _ _ hall]
    | succ k' =>
      simp only [List.getD_cons_succ] at htrue
      rw [ccnAux]
      have := ih k' (idx + 1) (if b then idx + 1 else acc) (by simpa using hk) htrue ?_
      · omega
      · intro m hm hm'
        have := hafter (m + 1) (by omega) (by simpa using Nat.succ_lt_succ hm')
        rwa [List.getD_cons_succ] at this

theorem countP_one_index (p : (Bool × Nat) → Bool) :
    ∀ (tiles : List (Bool × Nat)), tiles.countP p = 1 →
      ∃ k, k < tiles.length ∧ p (tiles.getD k (false, 0)) = true ∧
        ∀ m, m < tiles.length → m ≠ k → p (tiles.getD m (false, 0)) = false := by
  intro tiles
  induction tiles with
  | nil => intro h; simp [List.countP_nil] at h
  | cons t rest ih =>
    intro h
    rw [List.countP_cons] at h
    by_cases hp : p t = true
    · have hrest : rest.countP p = 0 := by rw [hp] at h; simpa using h
      refine ⟨0, Nat.succ_pos _, by simpa using hp, ?_⟩
      intro m hm hm0
      cases m with
      | zero => exact absurd rfl hm0
      | succ m' =>
        rw [List.getD_cons_succ]
        have hm' : m' < rest.length := by simpa using hm
        have := List.countP_eq_zero.mp hrest (rest.getD m' (false, 0))
          (by rw [List.getD_eq_getElem _ _ hm']; exact rest.getElem_mem hm')
        simpa using this
    · have hp' : p t = false := by simpa using hp
      have hrest : rest.countP p = 1 := by rw [hp'] at h; simpa using h
      obtain ⟨k', hk', htrue, hother⟩ := ih hrest
      refine ⟨k' + 1, by simpa using Nat.succ_lt_succ hk', by simpa using htrue, ?_⟩
      intro m hm hmne
      cases m with
      | zero => simpa using hp'
      | succ m' =>
        rw [List.getD_cons_succ]
        exact hother m' (by simpa using hm) (fun hh => hmne (by rw [hh]))

/-- C8: with `others` any permutation of the incorrect-angle pool (the
first shuffle) and `tiles` any permutation of the assembled nine-tile
list (the second shuffle), every successful `create_sprite` run places
exactly one tile marked correct, exactly one tile at 0°, draws the
eight other tiles' angles without replacement from the pool (all
distinct, none 0°), and returns `correct_number` equal to the correct
tile's grid index plus one, hence in [1..9]. -/
theorem create_sprite_invariants (others : List Nat) (tiles : List (Bool × Nat))
    (hperm1 : others.Perm incorrect_angles)
    (hperm2 : tiles.Perm (tiles_init others)) :
    SpriteInvariants tiles := by
  have hlen11 : others.length = 11 := by rw [hperm1.length_eq]; rfl
  have hnodup : others.Nodup := hperm1.nodup_iff.mpr (by decide)
  have hmem_pool : ∀ a ∈ others, a ∈ incorrect_angles := fun a ha => hperm1.mem_iff.mp ha
  have hnozero : ∀ a ∈ others, a ≠ 0 := by
    intro a ha h0
    have := hmem_pool a ha
    rw [h0] at this
    exact absurd this (by decide)
  have hlen : tiles.length = 9 := by
    rw [hperm2.length_eq]
    simp [tiles_init, List.length_take, hlen11]
  have hcnt : tiles.countP (fun t => t.1) = 1 := by
    rw [hperm2.countP_eq]
    unfold tiles_init
    rw [List.countP_cons]
    simp only [List.countP_map]
    rw [List.countP_eq_zero.mpr (by intro a _; simp [Function.comp])]
    simp
  have hcnt0 : tiles.countP (fun t => decide (t.2 = 0)) = 1 := by
    rw [hperm2.countP_eq]
    unfold tiles_init
    rw [List.countP_cons]
    simp only [List.countP_map]
    rw [List.countP_eq_zero.mpr ?_]
    · simp
    · intro a ha
      have := hnozero a (List.take_subset 8 others ha)
      simp [Function.comp, this]
  have hmem : ∀ p ∈ tiles, p.1 = false → p.2 ∈ incorrect_angles ∧ p.2 ≠ 0 := by
    intro p hp hfalse
    have hp' : p ∈ tiles_init others := hperm2.mem_iff.mp hp
    unfold tiles_init at hp'
    rcases List.mem_cons.mp hp' with h | h
    · rw [h] at hfalse; simp at hfalse
    · obtain ⟨a, ha, hpe⟩ := List.mem_map.mp h
      have hao : a ∈ others := List.take_subset 8 others ha
      rw [← hpe]
      exact ⟨hmem_pool a hao, hnozero a hao⟩
  have hnd : ((tiles.filter (fun t => !t.1)).map Prod.snd).Nodup := by
    have hpf : (tiles.filter (fun t => !t.1)).Perm ((tiles_init others).filter (fun t => !t.1)) :=
      hperm2.filter _
    have hmp : ((tiles.filter (fun t => !t.1)).map Prod.snd).Perm
        (((tiles_init others).filter (fun t => !t.1)).map Prod.snd) := hpf.map _
    rw [hmp.nodup_iff]
    unfold tiles_init
    rw [List.filter_cons_of_neg (by simp)]
    rw [List.filter_map]
    have : List.filter ((fun t : Bool × Nat => !t.1) ∘ fun a => ((false, a) : Bool × Nat))
        (others.take 8) = others.take 8 := List.filter_eq_self.mpr (fun a _ => rfl)
    rw [this, List.map_map]
    have : (Prod.snd ∘ fun a => ((false, a) : Bool × Nat)) = id := rfl
    rw [this, List.map_id]
    exact (hnodup.sublist (List.take_sublist 8 others))
  obtain ⟨k, hk, hktrue, hkother⟩ := countP_one_index (fun t => t.1) tiles hcnt
  have hccn : compute_correct_number tiles = k + 1 := by
    unfold compute_correct_number
    rw [ccnAux_last_true tiles k 0 0 hk hktrue ?_]
    · omega
    · intro m hm hm'
      exact hkother m hm' (by omega)
  refine ⟨hlen, hcnt, hcnt0, hmem, hnd, ?_, ?_, ?_⟩
  · rw [hccn]
    omega
  · rw [hccn]
    have hk9 : k < 9 := by rw [← hlen]; exact hk
    omega
  · intro j hj hjtrue
    rw [hccn]
    by_cases hjk : j = k
    · rw [hjk]
    · have := hkother j hj hjk
      rw [hjtrue] at this
      simp at this

theorem create_sprite_invariants_witness :
    SpriteInvariants (tiles_init incorrect_angles) :=
  create_sprite_invariants incorrect_angles (tiles_init incorrect_angles)
    (List.Perm.refl _) (List.Perm.refl _)

end Geronimo
